import Mathlib

/-!
A verification development for the AnkiLPCG note-generation engine
(`src/gen_notes.py`).  Python lines are modelled as `List Char`; the
cleanser, the automatic parser, the poem-line chain builders and the
context/recitation windowing queries are translated function by function.
Whitespace is modelled as the ASCII whitespace characters recognised by
Python's `str.strip` and by the regex class `\s` (the non-ASCII Unicode
whitespace characters play no role in any claim).
-/

/-- A physical text line, as produced by `str.splitlines`. -/
abbrev Line := List Char

/-- Shorthand for writing concrete lines. -/
def strToLine (s : String) : Line := s.data

/-- ASCII whitespace: the characters stripped by `str.strip` and matched by `\s`. -/
def isWS (c : Char) : Bool :=
  c == ' ' || c == '\t' || c == '\n' || c == '\r' || c == '\x0b' || c == '\x0c'

/-- `not line.strip()`: the line is empty or whitespace-only. -/
def isBlank (l : Line) : Bool := l.all isWS

/-- Remove the trailing whitespace run of a line. -/
def dropTrailingWS (l : Line) : Line := (l.reverse.dropWhile isWS).reverse

/-- `line.strip()`. -/
def stripLine (l : Line) : Line := dropTrailingWS (l.dropWhile isWS)

/-- The characters matched by the indentation regex `^[ \t]+`. -/
def isIndentChar (c : Char) : Bool := c == ' ' || c == '\t'

/-- The marker substituted for leading indentation. -/
def indentToken : Line := "<indent>".data

/-- `re.sub(r'^[ \t]+', r'<indent>', line)`: replace a leading run of
spaces/tabs (if any) by the indent token. -/
def indentSub (l : Line) : Line :=
  match l with
  | [] => []
  | c :: _ => if isIndentChar c then indentToken ++ l.dropWhile isIndentChar else l

/-- `line.startswith("#")`. -/
def startsHash : Line → Bool
  | c :: _ => c == '#'
  | [] => false

/-- Whether the line contains a `#` anywhere. -/
def hasHash (l : Line) : Bool := l.any (fun c => c == '#')

/-- `re.sub(r'\s*\#.*$', '', line)`: if the line contains a `#`, delete
everything from the first `#` to the end of the line together with the
whitespace run immediately preceding it; otherwise leave the line alone. -/
def stripComment (l : Line) : Line :=
  if hasHash l then dropTrailingWS (l.takeWhile (fun c => !(c == '#'))) else l

/-- Opening wrapper substituted for the indent token. -/
def spanStart : Line := "<span class=\"indent\">".data

/-- Closing wrapper substituted for the indent token. -/
def spanEnd : Line := "</span>".data

/-- `re.sub(r'^<indent>(.*)$', r'<span class="indent">\1</span>', line)`. -/
def indentToSpan (l : Line) : Line :=
  if indentToken.isPrefixOf l then spanStart ++ l.drop indentToken.length ++ spanEnd
  else l

/-- The first loop of `cleanse_text._normalize_blank_lines`: drop a line when
both it and the previous line (`last`, initially `""`) are blank. -/
def remove_consecutive_blanks : List Line → Line → List Line
  | [], _ => []
  | i :: rest, last =>
    if isBlank last && isBlank i then remove_consecutive_blanks rest i
    else i :: remove_consecutive_blanks rest i

/-- The second part of `_normalize_blank_lines`:
`for i in (0, -1): if not new_text[i].strip(): del new_text[i]`.
Indexing an empty list raises `IndexError`, modelled as `none`. -/
def del_blank_ends (l : List Line) : Option (List Line) :=
  match l with
  | [] => none
  | x :: rest =>
    let l1 := if isBlank x then rest else x :: rest
    match l1.getLast? with
    | none => none
    | some y => some (if isBlank y then l1.dropLast else l1)

/-- `cleanse_text._normalize_blank_lines`. -/
def normalize_blank_lines (l : List Line) : Option (List Line) :=
  del_blank_ends (remove_consecutive_blanks l [])

/-- The marker loop of `cleanse_text`: the last line receives `eot`; any other
line followed by a blank line receives `eos`. -/
def add_markers (l : List Line) (eos eot : Line) : List Line :=
  match l with
  | [] => []
  | [x] => [x ++ eot]
  | x :: y :: rest => (if isBlank y then x ++ eos else x) :: add_markers (y :: rest) eos eot

/-- The indentation/comment stage of `cleanse_text`: indent substitution,
removal of lines starting with `#`, `strip`, then trailing-comment removal. -/
def comment_pass (text : List Line) : List Line :=
  (((text.map indentSub).filter (fun l => !(startsHash l))).map stripLine).map stripComment

/-- `cleanse_text`, acting on the list of physical lines produced by
`splitlines`.  The uncaught `IndexError` inside `_normalize_blank_lines`
is modelled as `none`. -/
def cleanse_text (text : List Line) (eos eot : Line) : Option (List Line) :=
  match normalize_blank_lines (comment_pass text) with
  | none => none
  | some t => some (((add_markers t eos eot).filter (fun l => !(isBlank l))).map indentToSpan)

/-- The parallel arrays produced by `automatic_parse_text`. -/
structure ParsedText where
  title : Line
  verses : List Line
  subtitles : List Line
deriving DecidableEq, Repr

/-- Python's substring test `needle in haystack`: some suffix of the haystack
starts with the needle (the empty needle is contained in everything). -/
def line_contains (needle : Line) : Line → Bool
  | [] => needle.isEmpty
  | h :: t => needle.isPrefixOf (h :: t) || line_contains needle t

/-- The scanning loop of `automatic_parse_text`: a line containing the caesura
is a verse tagged with the current subtitle; any other line becomes the new
current subtitle (initially `''`). -/
def parse_pairs (caesura : Line) : List Line → Line → List (Line × Line)
  | [], _ => []
  | l :: ls, cur =>
    if line_contains caesura l then (l, cur) :: parse_pairs caesura ls cur
    else parse_pairs caesura ls l

/-- `automatic_parse_text`: the first line is the title (`lines[0]` raises
`IndexError` on an empty input, modelled as `none`), the rest is scanned into
parallel verse/subtitle arrays. -/
def automatic_parse_text (lines : List Line) (caesura : Line) : Option ParsedText :=
  match lines with
  | [] => none
  | t :: rest =>
    let ps := parse_pairs caesura rest []
    some ⟨t, ps.map Prod.fst, ps.map Prod.snd⟩

/-- A poem-chain node: `text_lines` covers the physical lines of the position,
`seq` and `start_index` are the sequence counters of `PoemLine`.  The grouped
automatic mode stores a tuple of subtitles on the node; no claim depends on
that tuple, so `subtitle` holds the single subtitle used by `SingleLine` and
`PoemSection` and is `[]` elsewhere. -/
structure PoemNode where
  text_lines : List Line
  subtitle : Line
  seq : Nat
  start_index : Nat
deriving DecidableEq, Repr

/-- The `Beginning` sentinel: `seq = 0`, `start_index = 0`.  It has no
`text_lines` attribute in the source; `getattr(pred, 'text_lines', [''])`
used by `GroupedLine.__init__` yields `['']`, so the sentinel is modelled with
`text_lines = [[]]` (one empty line). -/
def beginningNode : PoemNode :=
  { text_lines := [[]], subtitle := [], seq := 0, start_index := 0 }

/-- The `SingleLine` construction loop: each node takes `seq` and
`start_index` one above its predecessor's, and is back-patched as the
predecessor's successor (the chain is represented positionally). -/
def single_chain (pred : PoemNode) : List (Line × Line) → List PoemNode
  | [] => []
  | (t, s) :: rest =>
    let node : PoemNode :=
      { text_lines := [t], subtitle := s, seq := pred.seq + 1,
        start_index := pred.start_index + 1 }
    node :: single_chain node rest

/-- The `GroupedLine` construction loop: the `None` padding of a group is
filtered out of its text, `seq` is one above the predecessor's and
`start_index` advances by the predecessor's physical-line count. -/
def grouped_chain (pred : PoemNode) : List (List (Option Line)) → List PoemNode
  | [] => []
  | g :: rest =>
    let node : PoemNode :=
      { text_lines := g.filterMap id, subtitle := [], seq := pred.seq + 1,
        start_index := pred.start_index + pred.text_lines.length }
    node :: grouped_chain node rest

/-- `groups_of_n` unrolled: `zip_longest(*[iter(s)]*n)` yields `⌈L/n⌉` tuples
of size `n`, the last padded with `None`.  The fuel argument (called with the
list's length) only makes the recursion structural. -/
def groups_of_n_go (n : Nat) : Nat → List α → List (List (Option α))
  | _, [] => []
  | 0, _ :: _ => []
  | b + 1, a :: l =>
    ((a :: l.take (n - 1)).map some ++ List.replicate (n - 1 - l.length) none)
      :: groups_of_n_go n b (l.drop (n - 1))

/-- `groups_of_n(iterable, n)`.  With `n = 0`, `zip_longest()` yields
nothing. -/
def groups_of_n (l : List α) (n : Nat) : List (List (Option α)) :=
  if n = 0 then [] else groups_of_n_go n l.length l

/-- `_poemlines_from_textlines`: one `SingleLine` per cleansed line when
`group_lines == 1` (subtitle defaulting to `''`), otherwise one `GroupedLine`
per chunk. -/
def poemlines_from_textlines (texts : List Line) (group_lines : Nat) : List PoemNode :=
  if group_lines = 1 then single_chain beginningNode (texts.map (fun t => (t, ([] : Line))))
  else grouped_chain beginningNode (groups_of_n texts group_lines)

/-- `_poemlines_from_textlines_automatic`: the same chains built over the
parsed verses, with `subtitles[i]` attached to each `SingleLine`. -/
def poemlines_from_textlines_automatic (p : ParsedText) (group_lines : Nat) : List PoemNode :=
  if group_lines = 1 then single_chain beginningNode (p.verses.zip p.subtitles)
  else grouped_chain beginningNode (groups_of_n p.verses group_lines)

/-- The generator `get_section_lines`, unrolled over the verse/subtitle pairs:
`cur` is the current subtitle, `acc` the verses accumulated for it; a change
of subtitle emits the accumulated run, and the final run is emitted at the
end. -/
def section_runs_aux (cur : Line) (acc : List Line) : List (Line × Line) → List (Line × List Line)
  | [] => [(cur, acc)]
  | (v, s) :: rest =>
    if s = cur then section_runs_aux cur (acc ++ [v]) rest
    else (cur, acc) :: section_runs_aux s [v] rest

/-- `get_section_lines` over the parallel arrays: starts with
`cur = subtitles[0]` (an `IndexError`/`NameError` on empty input, modelled as
`none`). -/
def get_section_lines (verses subtitles : List Line) : Option (List (Line × List Line)) :=
  match verses, subtitles with
  | v :: vs, s :: ss => some (section_runs_aux s [] ((v :: vs).zip (s :: ss)))
  | _, _ => none

/-- The `PoemSection` construction loop of `_poemlines_from_textlines_by_section`:
one node per section, paired with the section's line count. -/
def section_chain (pred : PoemNode) : List (Line × List Line) → List (Nat × PoemNode)
  | [] => []
  | (sub, ls) :: rest =>
    let node : PoemNode :=
      { text_lines := ls, subtitle := sub, seq := pred.seq + 1,
        start_index := pred.start_index + pred.text_lines.length }
    (ls.length, node) :: section_chain node rest

/-- `_poemlines_from_textlines_by_section`. -/
def poemlines_from_textlines_by_section (p : ParsedText) : Option (List (Nat × PoemNode)) :=
  (get_section_lines p.verses p.subtitles).map (section_chain beginningNode)

/-- Python's `l[0::step]`: every `step`-th element starting at index 0.
The counter holds the number of elements still to skip. -/
def sliceAux (step : Nat) : List α → Nat → List α
  | [], _ => []
  | x :: xs, 0 => x :: sliceAux step xs (step - 1)
  | _ :: xs, c + 1 => sliceAux step xs c

/-- `l[0::step]` (the sampling used by `add_notes`; `step ≥ 1`). -/
def sliceStep (l : List α) (step : Nat) : List α := sliceAux step l 0

/-- The three import modes of `add_notes`. -/
inductive ImportMode
  | CUSTOM
  | AUTOMATIC
  | BY_SECTION
deriving DecidableEq, Repr

/-- The number of notes `add_notes` adds (its return value `added`): the
length of the sampled node list in Custom/Automatic mode, the number of
sections in By-section mode (which ignores `step`).  A parse error (empty
input to `automatic_parse_text`) is `none`. -/
def add_notes_count (text : List Line) (group_lines step : Nat) (mode : ImportMode)
    (caesura : Line) : Option Nat :=
  match mode with
  | .CUSTOM => some (sliceStep (poemlines_from_textlines text group_lines) step).length
  | .AUTOMATIC =>
    match automatic_parse_text text caesura with
    | none => none
    | some p => some (sliceStep (poemlines_from_textlines_automatic p group_lines) step).length
  | .BY_SECTION =>
    match automatic_parse_text text caesura with
    | none => none
    | some p => (poemlines_from_textlines_by_section p).map List.length

/-- The literal text of position `p` in a single-line chain over `ts` with
sentinel placeholder `b`: position 0 is the sentinel, position `p ≥ 1` is
`ts[p-1]`. -/
def posText (b : Line) (ts : List Line) (p : Nat) : Line :=
  if p = 0 then b else ts.getD (p - 1) []

/-- `_get_context(lines, recursing)` on a `group_lines = 1` chain, dispatched
positionally: position 0 is `Beginning._get_context` (always the placeholder),
position `p+1` is `SingleLine._get_context`.  `lines` is a Python `int`. -/
def get_context (b : Line) (ts : List Line) : Nat → Int → Bool → List Line
  | 0, _, _ => [b]
  | p + 1, lines, recursing =>
    if lines = 0 then [ts.getD p []]
    else if recursing then get_context b ts p (lines - 1) true ++ [ts.getD p []]
    else get_context b ts p (lines - 1) true

/-- `SingleLine._get_text(lines)` at position `p` (1-based) of a chain over
`ts`; the successor is `None` exactly when `p = ts.length`.  `lines` is a
Python `int`, so values below 1 fall through to the recursive branch. -/
def get_text (ts : List Line) (p : Nat) (lines : Int) : List Line :=
  if h : lines = 1 ∨ ts.length ≤ p then [ts.getD (p - 1) []]
  else ts.getD (p - 1) [] :: get_text ts (p + 1) (lines - 1)
termination_by ts.length - p
decreasing_by omega

/-- `GroupedLine._get_text(lines)` at position `p` of a chain whose groups'
text lines are `tss`. -/
def get_text_g (tss : List (List Line)) (p : Nat) (lines : Int) : List Line :=
  if h : lines = 1 ∨ tss.length ≤ p then tss.getD (p - 1) []
  else tss.getD (p - 1) [] ++ get_text_g tss (p + 1) (lines - 1)
termination_by tss.length - p
decreasing_by omega

/-- The `f"[...{n}]"` prompt text. -/
def prompt_string (n : Nat) : Line := "[...".data ++ (toString n).data ++ "]".data

/-- `SingleLine._get_prompt`: `None` when the actual recitation length is 1,
otherwise the literal count. -/
def get_prompt (ts : List Line) (p : Nat) (lines : Int) : Option Line :=
  if (get_text ts p lines).length = 1 then none
  else some (prompt_string (get_text ts p lines).length)

/-- The context window claimed by the spec: the literal text of positions
`max(0, p-k) .. p` inclusive, in order. -/
def context_spec (b : Line) (ts : List Line) (p k : Nat) : List Line :=
  (List.range' (p - k) (min p k + 1)).map (posText b ts)

/-- The number of maximal runs of consecutive equal values. -/
def count_runs : List Line → Nat
  | [] => 0
  | [_] => 1
  | a :: b :: rest => (if a = b then 0 else 1) + count_runs (b :: rest)

/-- Specification-level run grouping of verse/subtitle pairs: one
`(subtitle, verses)` entry per maximal run of consecutive equal subtitles. -/
def subtitle_runs : List (Line × Line) → List (Line × List Line)
  | [] => []
  | (v, s) :: rest =>
    match subtitle_runs rest with
    | [] => [(s, [v])]
    | (s2, vs) :: more =>
      if s = s2 then (s, v :: vs) :: more else (s, [v]) :: (s2, vs) :: more

/-! ### Helper lemmas about the cleanser's building blocks -/

theorem indentToken_eq : indentToken = ['<', 'i', 'n', 'd', 'e', 'n', 't', '>'] := rfl

theorem isWS_of_isIndentChar {c : Char} (h : isIndentChar c = true) : isWS c = true := by
  simp only [isIndentChar, Bool.or_eq_true, beq_iff_eq] at h
  rcases h with h | h <;> subst h <;> rfl

theorem indentSub_eq_self {l : Line} (h : ∀ c, l.head? = some c → isIndentChar c = false) :
    indentSub l = l := by
  cases l with
  | nil => rfl
  | cons c r => simp [indentSub, h c rfl]

theorem startsHash_indentSub (l : Line) : startsHash (indentSub l) = startsHash l := by
  cases l with
  | nil => rfl
  | cons c r =>
    by_cases hc : isIndentChar c = true
    · have hch : (c == '#') = false := by
        simp only [isIndentChar, Bool.or_eq_true, beq_iff_eq] at hc
        rcases hc with h | h <;> subst h <;> rfl
      simp [indentSub, hc, indentToken_eq, startsHash, hch]
    · simp [indentSub, hc]

theorem startsHash_of_hasHash {l : Line} (h : hasHash l = false) : startsHash l = false := by
  cases l with
  | nil => rfl
  | cons c r =>
    simp only [hasHash, List.any_cons, Bool.or_eq_false_iff] at h
    simp [startsHash, h.1]

theorem stripComment_of_no_hash {l : Line} (h : hasHash l = false) : stripComment l = l := by
  simp [stripComment, h]

theorem mem_dropTrailingWS {l : Line} {c : Char} (h : c ∈ dropTrailingWS l) : c ∈ l := by
  unfold dropTrailingWS at h
  rw [List.mem_reverse] at h
  have := (List.dropWhile_sublist (l := l.reverse) (p := isWS)).mem h
  rwa [List.mem_reverse] at this

theorem mem_stripLine {l : Line} {c : Char} (h : c ∈ stripLine l) : c ∈ l := by
  unfold stripLine at h
  exact (List.dropWhile_sublist (l := l) (p := isWS)).mem (mem_dropTrailingWS h)

theorem hasHash_stripLine {l : Line} (h : hasHash l = false) : hasHash (stripLine l) = false := by
  simp only [hasHash, List.any_eq_false, beq_iff_eq] at h ⊢
  intro c hc
  exact h c (mem_stripLine hc)

theorem isBlank_reverse (l : Line) : isBlank l.reverse = isBlank l := by
  simp [isBlank, List.all_reverse]

theorem isBlank_dropWhileWS (l : Line) : isBlank (l.dropWhile isWS) = isBlank l := by
  conv_rhs => rw [← List.takeWhile_append_dropWhile (p := isWS) (l := l)]
  simp only [isBlank, List.all_append]
  have : (l.takeWhile isWS).all isWS = true :=
    List.all_eq_true.mpr fun c hc => List.mem_takeWhile_imp hc
  rw [this, Bool.true_and]

theorem isBlank_dropTrailingWS (l : Line) : isBlank (dropTrailingWS l) = isBlank l := by
  unfold dropTrailingWS
  rw [isBlank_reverse, isBlank_dropWhileWS, isBlank_reverse]

theorem isBlank_stripLine (l : Line) : isBlank (stripLine l) = isBlank l := by
  unfold stripLine
  rw [isBlank_dropTrailingWS, isBlank_dropWhileWS]

theorem dropTrailingWS_append {a b : Line} (h : b.all isWS = false) :
    dropTrailingWS (a ++ b) = a ++ dropTrailingWS b := by
  unfold dropTrailingWS
  rw [List.reverse_append, List.dropWhile_append]
  have hne : (b.reverse.dropWhile isWS).isEmpty = false := by
    rw [List.isEmpty_eq_false_iff_exists_mem]
    by_contra hcon
    push_neg at hcon
    have : b.reverse.dropWhile isWS = [] := List.eq_nil_iff_forall_not_mem.mpr hcon
    rw [List.dropWhile_eq_nil_iff] at this
    have : b.all isWS = true := by
      rw [← List.all_reverse]
      exact List.all_eq_true.mpr this
    simp [this] at h
  rw [if_neg (by simp [hne]), List.reverse_append, List.reverse_reverse]

theorem dropTrailingWS_cons_nonws {c : Char} {r : Line} (h : isWS c = false) :
    dropTrailingWS (c :: r) = c :: dropTrailingWS r := by
  have : (c :: r) = [c] ++ r := rfl
  unfold dropTrailingWS
  rw [this, List.reverse_append, List.dropWhile_append]
  by_cases he : (r.reverse.dropWhile isWS).isEmpty = true
  · rw [if_pos he]
    rw [List.isEmpty_iff] at he
    simp [List.reverse_cons, List.dropWhile_cons, h, he]
  · rw [if_neg he, List.reverse_append]
    simp

theorem comment_pass_eq (text : List Line) :
    comment_pass text
      = (text.filter (fun l => !(startsHash l))).map
          (fun l => stripComment (stripLine (indentSub l))) := by
  unfold comment_pass
  rw [List.filter_map, List.map_map, List.map_map]
  have hf : text.filter ((fun l => !(startsHash l)) ∘ indentSub)
      = text.filter (fun l => !(startsHash l)) := by
    apply List.filter_congr
    intro x _
    simp [Function.comp, startsHash_indentSub]
  rw [hf]
  rfl

/-! ### Claim C5: comment handling -/

/-- C5 (counterexample): the claim says an *indented* full-line comment is
"dropped entirely from the cleansed output".  On input `["  #x", "a"]` with
empty markers the cleansed output would then be `["a"]`; the code instead
keeps an empty indented line for the comment, because indentation
substitution runs before the comment filter. -/
theorem C5_counterexample :
    cleanse_text [strToLine "  #x", strToLine "a"] [] []
        = some [strToLine "<span class=\"indent\"></span>", strToLine "a"]
      ∧ cleanse_text [strToLine "  #x", strToLine "a"] [] [] ≠ some [strToLine "a"] := by
  constructor
  · decide
  · decide

/-- C5 (amended): only a line whose *first character* is `#` is dropped
entirely by the comment stage; every kept line is the trimmed,
indent-substituted line with any `#`-prefixed trailing comment (and the
whitespace before it) removed.  In particular a space/tab-indented full-line
comment is not dropped: it is reduced to a bare indent token (an empty
indented line). -/
theorem C5_comment_handling (text : List Line) :
    comment_pass text
        = (text.filter (fun l => !(startsHash l))).map
            (fun l => stripComment (stripLine (indentSub l)))
      ∧ ∀ l r, l.dropWhile isIndentChar = '#' :: r → startsHash l = false →
          stripComment (stripLine (indentSub l)) = indentToken := by
  constructor
  · exact comment_pass_eq text
  · intro l r hdrop hsh
    have hl : ∃ c t, l = c :: t ∧ isIndentChar c = true := by
      cases l with
      | nil => simp [List.dropWhile] at hdrop
      | cons c t =>
        by_cases hc : isIndentChar c = true
        · exact ⟨c, t, rfl, hc⟩
        · rw [List.dropWhile_cons, if_neg (by simp [hc])] at hdrop
          rw [hdrop] at hsh
          simp [startsHash] at hsh
    obtain ⟨c, t, rfl, hc⟩ := hl
    have hsub : indentSub (c :: t) = indentToken ++ ('#' :: r) := by
      rw [← hdrop]
      simp [indentSub, hc]
    rw [hsub]
    have h1 : stripLine (indentToken ++ ('#' :: r)) = indentToken ++ ('#' :: dropTrailingWS r) := by
      unfold stripLine
      have hdw : (indentToken ++ ('#' :: r)).dropWhile isWS = indentToken ++ ('#' :: r) := by
        rw [indentToken_eq]
        simp only [List.cons_append]
        rw [List.dropWhile_cons, if_neg (by decide)]
      rw [hdw, dropTrailingWS_append (a := indentToken) (b := '#' :: r)
        (by simp [List.all_cons, show isWS '#' = false from by decide]),
        dropTrailingWS_cons_nonws (by rfl)]
    rw [h1]
    have hhash : hasHash (indentToken ++ ('#' :: dropTrailingWS r)) = true := by
      simp [hasHash, List.any_append]
    unfold stripComment
    rw [if_pos hhash]
    have htake : (indentToken ++ ('#' :: dropTrailingWS r)).takeWhile (fun c => !(c == '#'))
        = indentToken := by
      rw [indentToken_eq]
      simp only [List.cons_append, List.takeWhile_cons]
      simp
    rw [htake]
    decide

/-! ### More cleanser lemmas: blank-line normalization and markers -/

theorem remove_consecutive_blanks_of_nonblank {xs : List Line}
    (h : ∀ l ∈ xs, isBlank l = false) :
    ∀ last, remove_consecutive_blanks xs last = xs := by
  induction xs with
  | nil => intro last; rfl
  | cons i rest ih =>
    intro last
    have hi : isBlank i = false := h i (by simp)
    rw [remove_consecutive_blanks, if_neg (by simp [hi])]
    rw [ih (fun l hl => h l (List.mem_cons_of_mem _ hl))]

theorem del_blank_ends_of_nonblank {xs : List Line} (hne : xs ≠ [])
    (h : ∀ l ∈ xs, isBlank l = false) : del_blank_ends xs = some xs := by
  cases xs with
  | nil => exact absurd rfl hne
  | cons x rest =>
    have hx : isBlank x = false := h x (by simp)
    rw [del_blank_ends]
    simp only [hx, Bool.false_eq_true, if_false]
    cases hg : (x :: rest).getLast? with
    | none => simp [List.getLast?_eq_none_iff] at hg
    | some y =>
      have hy : isBlank y = false := h y (List.mem_of_mem_getLast? hg)
      simp [hy]

theorem normalize_of_nonblank {xs : List Line} (hne : xs ≠ [])
    (h : ∀ l ∈ xs, isBlank l = false) : normalize_blank_lines xs = some xs := by
  unfold normalize_blank_lines
  rw [remove_consecutive_blanks_of_nonblank h, del_blank_ends_of_nonblank hne h]

theorem add_markers_of_nonblank {xs : List Line} (eos : Line)
    (h : ∀ l ∈ xs, isBlank l = false) : add_markers xs eos [] = xs := by
  induction xs with
  | nil => rfl
  | cons x rest ih =>
    cases rest with
    | nil => simp [add_markers]
    | cons y rest2 =>
      have hy : isBlank y = false := h y (by simp)
      rw [add_markers, if_neg (by simp [hy])]
      rw [ih (fun l hl => h l (List.mem_cons_of_mem _ hl))]

theorem dropWhileWS_eq_self {l : Line} (h : ∀ c, l.head? = some c → isWS c = false) :
    l.dropWhile isWS = l := by
  cases l with
  | nil => rfl
  | cons c r => rw [List.dropWhile_cons, if_neg (by simp [h c rfl])]

theorem dropTrailingWS_isPrefix (l : Line) : dropTrailingWS l <+: l := by
  unfold dropTrailingWS
  have : (l.reverse.dropWhile isWS).reverse <+: l.reverse.reverse := by
    rw [List.reverse_prefix]
    exact List.dropWhile_suffix isWS
  rwa [List.reverse_reverse] at this

theorem remove_consecutive_blanks_of_blank {xs : List Line}
    (h : ∀ l ∈ xs, isBlank l = true) :
    ∀ last, isBlank last = true → remove_consecutive_blanks xs last = [] := by
  induction xs with
  | nil => intro last _; rfl
  | cons i rest ih =>
    intro last hlast
    have hi : isBlank i = true := h i (by simp)
    rw [remove_consecutive_blanks, if_pos (by simp [hi, hlast])]
    exact ih (fun l hl => h l (List.mem_cons_of_mem _ hl)) i hi

/-! ### Claim C6: round-trip of comment-free, blank-free poems -/

/-- C6 (counterexample): the claim quantifies over every poem with no `#`
comments and no blank lines, so it covers indented lines; cleansing `["  a"]`
with empty markers yields an indent-wrapped line, not the whitespace-trimmed
original. -/
theorem C6_counterexample :
    cleanse_text [strToLine "  a"] [] [] = some [strToLine "<span class=\"indent\">a</span>"]
      ∧ cleanse_text [strToLine "  a"] [] [] ≠ some ([strToLine "  a"].map stripLine) := by
  constructor
  · decide
  · decide

/-- C6 (amended): for a nonempty poem with no blank lines, no `#` anywhere,
no leading whitespace on any line, and no line starting with the literal
indent token, cleansing with `endOfStanzaMarker = ''` and
`endOfTextMarker = ''` returns exactly the whitespace-trimmed original lines
(same count, same order).  Indented lines are excluded because they are
rewritten into indent markup rather than merely trimmed. -/
theorem C6_roundtrip (text : List Line) (hne : text ≠ [])
    (h : ∀ l ∈ text, isBlank l = false ∧ (∀ c, l.head? = some c → isWS c = false)
        ∧ hasHash l = false ∧ indentToken.isPrefixOf l = false) :
    cleanse_text text [] [] = some (text.map stripLine) := by
  have hcp : comment_pass text = text.map stripLine := by
    rw [comment_pass_eq]
    rw [List.filter_eq_self.mpr (fun l hl => by
      simp [startsHash_of_hasHash (h l hl).2.2.1])]
    apply List.map_congr_left
    intro l hl
    rw [indentSub_eq_self (fun c hc => by
      by_contra hcon
      have : isWS c = true := isWS_of_isIndentChar (by
        cases hic : isIndentChar c
        · exact absurd hic hcon
        · rfl)
      rw [(h l hl).2.1 c hc] at this
      exact Bool.false_ne_true this)]
    exact stripComment_of_no_hash (hasHash_stripLine (h l hl).2.2.1)
  have hblank : ∀ m ∈ text.map stripLine, isBlank m = false := by
    intro m hm
    rw [List.mem_map] at hm
    obtain ⟨l, hl, rfl⟩ := hm
    rw [isBlank_stripLine]
    exact (h l hl).1
  unfold cleanse_text
  rw [hcp, normalize_of_nonblank (by simpa using hne) hblank]
  show some (((add_markers (text.map stripLine) [] []).filter
      (fun l => !(isBlank l))).map indentToSpan) = _
  rw [add_markers_of_nonblank [] hblank]
  rw [List.filter_eq_self.mpr (fun m hm => by simp [hblank m hm])]
  have hspan : ∀ m ∈ text.map stripLine, indentToSpan m = id m := by
    intro m hm
    rw [List.mem_map] at hm
    obtain ⟨l, hl, rfl⟩ := hm
    have hpre : indentToken.isPrefixOf (stripLine l) = false := by
      cases hx : indentToken.isPrefixOf (stripLine l)
      · rfl
      · exfalso
        rw [List.isPrefixOf_iff_prefix] at hx
        have hdw : l.dropWhile isWS = l := dropWhileWS_eq_self (h l hl).2.1
        rw [stripLine, hdw] at hx
        have hpl : indentToken <+: l := hx.trans (dropTrailingWS_isPrefix l)
        rw [← List.isPrefixOf_iff_prefix] at hpl
        rw [(h l hl).2.2.2] at hpl
        exact Bool.false_ne_true hpl
    simp [indentToSpan, hpre]
  rw [List.map_congr_left hspan, List.map_id]

/-- C6 (witness): the amended round-trip theorem applied to a concrete
two-line poem. -/
theorem C6_roundtrip_witness :
    cleanse_text [strToLine "ab ", strToLine "cd"] [] []
      = some ([strToLine "ab ", strToLine "cd"].map stripLine) :=
  C6_roundtrip [strToLine "ab ", strToLine "cd"] (by decide) (by decide)

/-- C5 (witness): the amended comment-handling theorem applied to concrete
lines, including an indented full-line comment. -/
theorem C5_comment_handling_witness :
    comment_pass [strToLine "  #x", strToLine "a"]
        = ([strToLine "  #x", strToLine "a"].filter (fun l => !(startsHash l))).map
            (fun l => stripComment (stripLine (indentSub l)))
      ∧ stripComment (stripLine (indentSub (strToLine " #y "))) = indentToken :=
  ⟨(C5_comment_handling [strToLine "  #x", strToLine "a"]).1,
   (C5_comment_handling []).2 (strToLine " #y ") (strToLine "y ") (by decide) (by decide)⟩

/-! ### Claim C10: inputs that crash the cleanser -/

/-- C10 (counterexample): the claim says every input whose lines are all
blank (or column-0 comments) makes the cleanser raise an uncaught indexing
error.  A whitespace-only line is blank, yet the cleanser does not crash on
it: indentation substitution turns it into a non-blank `<indent>` token
first. -/
theorem C10_counterexample :
    cleanse_text [strToLine " "] [] [] = some [strToLine "<span class=\"indent\"></span>"]
      ∧ cleanse_text [strToLine " "] [] [] ≠ none := by
  constructor
  · decide
  · decide

/-- C10 (amended): for every input (the empty one included) whose lines are
all *empty* or are full-line comments starting at column 0, the cleanser hits
the unguarded `new_text[0]` / `new_text[-1]` indexing in
`_normalize_blank_lines` and raises `IndexError` (modelled as `none`).
Whitespace-only nonempty lines are excluded: they survive as indent
tokens. -/
theorem C10_empty_crash (text : List Line) (eos eot : Line)
    (h : ∀ l ∈ text, l = [] ∨ startsHash l = true) :
    cleanse_text text eos eot = none := by
  have hcp : ∀ m ∈ comment_pass text, isBlank m = true := by
    rw [comment_pass_eq]
    intro m hm
    rw [List.mem_map] at hm
    obtain ⟨l, hl, rfl⟩ := hm
    rw [List.mem_filter] at hl
    rcases h l hl.1 with rfl | hsh
    · decide
    · rw [hsh] at hl
      simp at hl
  have hnorm : normalize_blank_lines (comment_pass text) = none := by
    unfold normalize_blank_lines
    rw [remove_consecutive_blanks_of_blank hcp [] (by decide)]
    rfl
  unfold cleanse_text
  rw [hnorm]

/-- C10 (witness): the amended crash theorem applied to a concrete input made
of a column-0 comment and an empty line. -/
theorem C10_empty_crash_witness :
    cleanse_text [strToLine "#a", strToLine ""] (strToLine "Y") (strToLine "X") = none :=
  C10_empty_crash [strToLine "#a", strToLine ""] (strToLine "Y") (strToLine "X") (by decide)

/-! ### Claim C1: context windowing on a group_lines = 1 chain -/

theorem get_context_rec_eq (b : Line) (ts : List Line) :
    ∀ (j q : Nat), get_context b ts q (j : Int) true
      = (List.range' (q - j) (min q j + 1)).map (posText b ts) := by
  intro j
  induction j with
  | zero =>
    intro q
    cases q with
    | zero => simp [get_context, List.range', posText]
    | succ p =>
      rw [get_context]
      simp [List.range', posText]
  | succ m ih =>
    intro q
    cases q with
    | zero => simp [get_context, List.range', posText]
    | succ p =>
      rw [get_context, if_neg (by omega), if_pos rfl]
      have hc : ((m + 1 : Nat) : Int) - 1 = (m : Int) := by push_cast; ring
      rw [hc, ih p]
      have hr : List.range' (p + 1 - (m + 1)) (min (p + 1) (m + 1) + 1)
          = List.range' (p - m) (min p m + 1) ++ [p + 1] := by
        rw [show p + 1 - (m + 1) = p - m by omega, Nat.succ_min_succ]
        have hrc : List.range' (p - m) (min p m + 1 + 1)
            = List.range' (p - m) (min p m + 1) ++ [p - m + 1 * (min p m + 1)] :=
          List.range'_concat (p - m) (min p m + 1)
        simpa [show p - m + (min p m + 1) = p + 1 by omega] using hrc
      rw [hr, List.map_append]
      simp [posText]

/-- C1 (counterexample): at position 1 of the one-line chain `["a"]` with
window `k = 1`, the context query returns only the sentinel placeholder,
whereas the claim's window `max(0, p-k)..p` would also include the node's own
text. -/
theorem C1_counterexample :
    get_context (strToLine "B") [strToLine "a"] 1 1 false = [strToLine "B"]
      ∧ get_context (strToLine "B") [strToLine "a"] 1 1 false
          ≠ context_spec (strToLine "B") [strToLine "a"] 1 1 := by
  constructor
  · decide
  · decide

/-- C1 (amended): for a non-sentinel node at position `p` of a
`group_lines = 1` chain, `k = 0` returns just the node's own text, and
`k ≥ 1` returns the literal text of the `k` positions `max(0, p-k) .. p-1`
*preceding* the node, oldest first, with the sentinel's placeholder
substituted at position 0 — the node's own text is excluded from the
window. -/
theorem C1_context_window (b : Line) (ts : List Line) (p : Nat) (h1 : 1 ≤ p)
    (_h2 : p ≤ ts.length) :
    get_context b ts p 0 false = [posText b ts p]
      ∧ ∀ k : Nat, 1 ≤ k →
          get_context b ts p (k : Int) false
            = (List.range' (p - k) (min p k)).map (posText b ts) := by
  obtain ⟨q, rfl⟩ : ∃ q, p = q + 1 := ⟨p - 1, by omega⟩
  constructor
  · rw [get_context]
    simp [posText]
  · intro k hk
    obtain ⟨m, rfl⟩ : ∃ m, k = m + 1 := ⟨k - 1, by omega⟩
    rw [get_context, if_neg (by omega), if_neg (by simp)]
    have hc : ((m + 1 : Nat) : Int) - 1 = (m : Int) := by push_cast; ring
    rw [hc, get_context_rec_eq b ts m q]
    rw [show q + 1 - (m + 1) = q - m by omega, Nat.succ_min_succ]

/-- C1 (witness): the amended context theorem applied to position 4 of a
five-line chain with window 2 (interior case) and window 6 (sentinel-capped
case). -/
theorem C1_context_window_witness :
    get_context (strToLine "B") [strToLine "a", strToLine "b", strToLine "c",
        strToLine "d", strToLine "e"] 4 (2 : Nat) false
      = (List.range' (4 - 2) (min 4 2)).map (posText (strToLine "B")
          [strToLine "a", strToLine "b", strToLine "c", strToLine "d", strToLine "e"]) :=
  (C1_context_window (strToLine "B") [strToLine "a", strToLine "b", strToLine "c",
      strToLine "d", strToLine "e"] 4 (by decide) (by decide)).2 2 (by decide)

/-! ### Claims C2 and C9: recitation windowing and prompts -/

theorem get_text_eq (ts : List Line) :
    ∀ (fuel p : Nat) (k : Int), ts.length - p = fuel → 1 ≤ p → p ≤ ts.length → 1 ≤ k →
      get_text ts p k
        = (List.range' (p - 1) (min k.toNat (ts.length - p + 1))).map (fun i => ts.getD i []) := by
  intro fuel
  induction fuel with
  | zero =>
    intro p k hf h1 h2 hk
    have hp : p = ts.length := by omega
    rw [get_text, dif_pos (Or.inr (by omega))]
    have hm : min k.toNat (ts.length - p + 1) = 1 := by omega
    rw [hm]
    simp [List.range']
  | succ m ih =>
    intro p k hf h1 h2 hk
    by_cases hk1 : k = 1
    · subst hk1
      rw [get_text, dif_pos (Or.inl rfl)]
      have hm : min (1 : Int).toNat (ts.length - p + 1) = 1 := by omega
      rw [hm]
      simp [List.range']
    · rw [get_text, dif_neg (by omega)]
      rw [ih (p + 1) (k - 1) (by omega) (by omega) (by omega) (by omega)]
      have hm : min k.toNat (ts.length - p + 1) = min (k - 1).toNat (ts.length - (p + 1) + 1) + 1 := by
        omega
      rw [hm]
      have hrs : List.range' (p - 1) (min (k - 1).toNat (ts.length - (p + 1) + 1) + 1)
          = (p - 1) :: List.range' (p - 1 + 1) (min (k - 1).toNat (ts.length - (p + 1) + 1)) :=
        List.range'_succ (p - 1) (min (k - 1).toNat (ts.length - (p + 1) + 1)) 1
      rw [hrs, show p - 1 + 1 = p by omega]
      simp

/-- C2 (counterexample helper is not needed; the claim is confirmed). -/
theorem C2_recitation (ts : List Line) (p : Nat) (k : Int) (h1 : 1 ≤ p)
    (h2 : p ≤ ts.length) (hk : 1 ≤ k) :
    (get_text ts p k).length = min k.toNat (ts.length - p + 1)
      ∧ (get_text ts p k).head? = some (ts.getD (p - 1) [])
      ∧ (get_prompt ts p k = none ↔ min k.toNat (ts.length - p + 1) = 1)
      ∧ (∀ n, min k.toNat (ts.length - p + 1) = n → n ≠ 1 →
          get_prompt ts p k = some (prompt_string n)) := by
  have heq := get_text_eq ts (ts.length - p) p k rfl h1 h2 hk
  have hlen : (get_text ts p k).length = min k.toNat (ts.length - p + 1) := by
    rw [heq, List.length_map, List.length_range']
  refine ⟨hlen, ?_, ?_, ?_⟩
  · have hm : ∃ x, min k.toNat (ts.length - p + 1) = x + 1 :=
      ⟨min k.toNat (ts.length - p + 1) - 1, by omega⟩
    obtain ⟨x, hx⟩ := hm
    rw [heq, hx]
    rw [List.range'_succ (p - 1) x 1]
    simp
  · unfold get_prompt
    rw [hlen]
    constructor
    · intro hnone
      by_contra hne
      rw [if_neg hne] at hnone
      exact Option.some_ne_none _ hnone
    · intro hone
      rw [if_pos hone]
  · intro n hn hne
    unfold get_prompt
    rw [hlen, hn, if_neg hne]

/-- C2 (witness): the recitation theorem at position 4 of a five-line chain
with configured window 3: the actual window is truncated to 2, so the prompt
shows 2. -/
theorem C2_recitation_witness :
    (get_text [strToLine "a", strToLine "b", strToLine "c", strToLine "d",
        strToLine "e"] 4 3).length = min (3 : Int).toNat (5 - 4 + 1)
      ∧ get_prompt [strToLine "a", strToLine "b", strToLine "c", strToLine "d",
          strToLine "e"] 4 3 = some (prompt_string 2) := by
  have h := C2_recitation [strToLine "a", strToLine "b", strToLine "c", strToLine "d",
    strToLine "e"] 4 3 (by decide) (by decide) (by decide)
  exact ⟨h.1, h.2.2.2 2 (by decide) (by decide)⟩

theorem get_text_nonpos (ts : List Line) :
    ∀ (fuel p : Nat) (k : Int), ts.length - p = fuel → 1 ≤ p → p ≤ ts.length → k < 1 →
      get_text ts p k = ts.drop (p - 1) := by
  intro fuel
  induction fuel with
  | zero =>
    intro p k hf h1 h2 hk
    have hp : p = ts.length := by omega
    rw [get_text, dif_pos (Or.inr (by omega))]
    have hlt : p - 1 < ts.length := by omega
    rw [List.drop_eq_getElem_cons hlt, show p - 1 + 1 = ts.length by omega,
      List.drop_length, List.getD_eq_getElem ts [] hlt]
  | succ m ih =>
    intro p k hf h1 h2 hk
    rw [get_text, dif_neg (by omega)]
    rw [ih (p + 1) (k - 1) (by omega) (by omega) (by omega) (by omega)]
    have hlt : p - 1 < ts.length := by omega
    rw [List.drop_eq_getElem_cons hlt, show p - 1 + 1 = p by omega,
      List.getD_eq_getElem ts [] hlt]
    simp

theorem get_text_g_nonpos (tss : List (List Line)) :
    ∀ (fuel p : Nat) (k : Int), tss.length - p = fuel → 1 ≤ p → p ≤ tss.length → k < 1 →
      get_text_g tss p k = (tss.drop (p - 1)).flatten := by
  intro fuel
  induction fuel with
  | zero =>
    intro p k hf h1 h2 hk
    have hp : p = tss.length := by omega
    rw [get_text_g, dif_pos (Or.inr (by omega))]
    have hlt : p - 1 < tss.length := by omega
    rw [List.drop_eq_getElem_cons hlt, show p - 1 + 1 = tss.length by omega,
      List.drop_length, List.getD_eq_getElem tss [] hlt]
    simp
  | succ m ih =>
    intro p k hf h1 h2 hk
    rw [get_text_g, dif_neg (by omega)]
    rw [ih (p + 1) (k - 1) (by omega) (by omega) (by omega) (by omega)]
    have hlt : p - 1 < tss.length := by omega
    rw [List.drop_eq_getElem_cons hlt, show p - 1 + 1 = p by omega,
      List.getD_eq_getElem tss [] hlt]
    simp

/-- C9: with a recitation count of 0 (or anything below 1), a `SingleLine` or
`GroupedLine` node that has a successor returns its own text followed by the
text of every successor to the end of the chain — the whole remainder of the
poem — because the `lines == 1` stop condition is never reached. -/
theorem C9_recite_nonpositive (k : Int) (hk : k < 1) :
    (∀ ts : List Line, ∀ p, 1 ≤ p → p < ts.length → get_text ts p k = ts.drop (p - 1))
      ∧ (∀ tss : List (List Line), ∀ p, 1 ≤ p → p < tss.length →
          get_text_g tss p k = (tss.drop (p - 1)).flatten) := by
  constructor
  · intro ts p h1 h2
    exact get_text_nonpos ts (ts.length - p) p k rfl h1 (by omega) hk
  · intro tss p h1 h2
    exact get_text_g_nonpos tss (tss.length - p) p k rfl h1 (by omega) hk

/-- C9 (witness): recitation count 0 at position 2 of a four-line chain and
at position 1 of a two-group chain returns the whole remainder. -/
theorem C9_recite_nonpositive_witness :
    get_text [strToLine "a", strToLine "b", strToLine "c", strToLine "d"] 2 0
        = [strToLine "a", strToLine "b", strToLine "c", strToLine "d"].drop (2 - 1)
      ∧ get_text_g [[strToLine "a", strToLine "b"], [strToLine "c"]] 1 0
          = ([[strToLine "a", strToLine "b"], [strToLine "c"]].drop (1 - 1)).flatten :=
  ⟨(C9_recite_nonpositive 0 (by decide)).1 [strToLine "a", strToLine "b", strToLine "c",
      strToLine "d"] 2 (by decide) (by decide),
   (C9_recite_nonpositive 0 (by decide)).2 [[strToLine "a", strToLine "b"], [strToLine "c"]]
      1 (by decide) (by decide)⟩

/-! ### Claim C3: note counts in Custom and Automatic mode -/

theorem sliceAux_length {α : Type} (step : Nat) (hs : 1 ≤ step) :
    ∀ (l : List α) (c : Nat), (sliceAux step l c).length = (l.length - c + step - 1) / step := by
  intro l
  induction l with
  | nil =>
    intro c
    show 0 = (List.length ([] : List α) - c + step - 1) / step
    rw [Nat.div_eq_of_lt (by simp only [List.length_nil]; omega)]
  | cons x xs ih =>
    intro c
    cases c with
    | zero =>
      show (x :: sliceAux step xs (step - 1)).length = _
      rw [List.length_cons, ih (step - 1)]
      rcases Nat.lt_or_ge xs.length (step - 1) with h | h
      · rw [show xs.length - (step - 1) + step - 1 = step - 1 by omega,
          Nat.div_eq_of_lt (by omega),
          show (x :: xs).length - 0 + step - 1 = xs.length + step by simp,
          Nat.add_div_right _ (by omega), Nat.div_eq_of_lt (by omega)]
      · rw [show xs.length - (step - 1) + step - 1 = xs.length by omega,
          show (x :: xs).length - 0 + step - 1 = xs.length + step by simp,
          Nat.add_div_right _ (by omega)]
    | succ c2 =>
      show (sliceAux step xs c2).length = _
      rw [ih c2,
        show (x :: xs).length - (c2 + 1) + step - 1 = xs.length - c2 + step - 1 by
          simp only [List.length_cons]; omega]

theorem sliceStep_length {α : Type} (l : List α) (step : Nat) (hs : 1 ≤ step) :
    (sliceStep l step).length = (l.length + step - 1) / step := by
  unfold sliceStep
  rw [sliceAux_length step hs l 0, Nat.sub_zero]

theorem single_chain_length (ps : List (Line × Line)) :
    ∀ pred, (single_chain pred ps).length = ps.length := by
  induction ps with
  | nil => intro pred; rfl
  | cons q rest ih =>
    intro pred
    obtain ⟨t, s⟩ := q
    rw [single_chain]
    simp only [List.length_cons]
    rw [ih]

theorem grouped_chain_length (gs : List (List (Option Line))) :
    ∀ pred, (grouped_chain pred gs).length = gs.length := by
  induction gs with
  | nil => intro pred; rfl
  | cons g rest ih =>
    intro pred
    rw [grouped_chain]
    simp only [List.length_cons]
    rw [ih]

theorem groups_of_n_go_length {α : Type} (n : Nat) (hn : 1 ≤ n) :
    ∀ (b : Nat) (l : List α), l.length ≤ b →
      (groups_of_n_go n b l).length = (l.length + n - 1) / n := by
  intro b
  induction b with
  | zero =>
    intro l hl
    have : l = [] := List.eq_nil_of_length_eq_zero (by omega)
    subst this
    show 0 = (List.length ([] : List α) + n - 1) / n
    rw [Nat.div_eq_of_lt (by simp only [List.length_nil]; omega)]
  | succ m ih =>
    intro l hl
    cases l with
    | nil =>
      show 0 = (List.length ([] : List α) + n - 1) / n
      rw [Nat.div_eq_of_lt (by simp only [List.length_nil]; omega)]
    | cons a l2 =>
      rw [groups_of_n_go]
      simp only [List.length_cons]
      rw [ih (l2.drop (n - 1)) (by
        rw [List.length_drop]
        simp only [List.length_cons] at hl
        omega), List.length_drop]
      rcases Nat.lt_or_ge l2.length (n - 1) with h | h
      · rw [show l2.length - (n - 1) + n - 1 = n - 1 by omega,
          Nat.div_eq_of_lt (by omega),
          show l2.length + 1 + n - 1 = l2.length + n by omega,
          Nat.add_div_right _ (by omega), Nat.div_eq_of_lt (by omega)]
      · rw [show l2.length - (n - 1) + n - 1 = l2.length by omega,
          show l2.length + 1 + n - 1 = l2.length + n by omega,
          Nat.add_div_right _ (by omega)]

theorem groups_of_n_length {α : Type} (l : List α) (n : Nat) (hn : 1 ≤ n) :
    (groups_of_n l n).length = (l.length + n - 1) / n := by
  unfold groups_of_n
  rw [if_neg (by omega)]
  exact groups_of_n_go_length n hn l.length l (Nat.le_refl _)

/-- C3 (counterexample): in Automatic mode the claim's formula
`ceil(number_of_cleansed_lines / step)` fails: the two cleansed lines
`["T", "a b"]` with `step = 1` produce one note (the title line is consumed
by the parser and is not a verse), not two. -/
theorem C3_counterexample :
    add_notes_count [strToLine "T", strToLine "a b"] 1 1 .AUTOMATIC (strToLine " ") = some 1
      ∧ add_notes_count [strToLine "T", strToLine "a b"] 1 1 .AUTOMATIC (strToLine " ")
          ≠ some (([strToLine "T", strToLine "a b"].length + 1 - 1) / 1) := by
  constructor
  · decide
  · decide

/-- C3 (amended): for every input and `step ≥ 1`, in Custom mode the number
of notes added is `ceil(L / step)` with `group_lines = 1` and
`ceil(ceil(L / N) / step)` with `group_lines = N ≥ 2`, where `L` is the
number of cleansed lines; in Automatic mode the same two formulas hold with
`L` replaced by the number of *parsed verse lines* (the title line and the
subtitle lines are not verses and generate no notes). -/
theorem C3_note_counts (text : List Line) (step : Nat) (hs : 1 ≤ step) (caesura : Line) :
    add_notes_count text 1 step .CUSTOM caesura = some ((text.length + step - 1) / step)
      ∧ (∀ group, 2 ≤ group →
          add_notes_count text group step .CUSTOM caesura
            = some (((text.length + group - 1) / group + step - 1) / step))
      ∧ (∀ P, automatic_parse_text text caesura = some P →
          add_notes_count text 1 step .AUTOMATIC caesura
              = some ((P.verses.length + step - 1) / step)
            ∧ ∀ group, 2 ≤ group →
                add_notes_count text group step .AUTOMATIC caesura
                  = some (((P.verses.length + group - 1) / group + step - 1) / step)) := by
  refine ⟨?_, ?_, ?_⟩
  · show some (sliceStep (poemlines_from_textlines text 1) step).length = _
    rw [sliceStep_length _ step hs]
    unfold poemlines_from_textlines
    rw [if_pos rfl, single_chain_length, List.length_map]
  · intro group hg
    show some (sliceStep (poemlines_from_textlines text group) step).length = _
    rw [sliceStep_length _ step hs]
    unfold poemlines_from_textlines
    rw [if_neg (by omega), grouped_chain_length, groups_of_n_length text group (by omega)]
  · intro P hP
    constructor
    · show (match automatic_parse_text text caesura with
        | none => none
        | some p => some (sliceStep (poemlines_from_textlines_automatic p 1) step).length) = _
      rw [hP]
      show some (sliceStep (poemlines_from_textlines_automatic P 1) step).length = _
      rw [sliceStep_length _ step hs]
      unfold poemlines_from_textlines_automatic
      rw [if_pos rfl, single_chain_length, List.length_zip]
      have hlen : P.subtitles.length = P.verses.length := by
        obtain ⟨t, rest⟩ : ∃ t rest, text = t :: rest := by
          cases text with
          | nil => simp [automatic_parse_text] at hP
          | cons a b => exact ⟨a, b, rfl⟩
        obtain ⟨rest, rfl⟩ := rest
        rw [automatic_parse_text] at hP
        simp only [Option.some_inj] at hP
        rw [← hP]
        simp
      rw [hlen, Nat.min_self]
    · intro group hg
      show (match automatic_parse_text text caesura with
        | none => none
        | some p => some (sliceStep (poemlines_from_textlines_automatic p group) step).length) = _
      rw [hP]
      show some (sliceStep (poemlines_from_textlines_automatic P group) step).length = _
      rw [sliceStep_length _ step hs]
      unfold poemlines_from_textlines_automatic
      rw [if_neg (by omega), grouped_chain_length,
        groups_of_n_length P.verses group (by omega)]

/-- C3 (witness): the amended count theorem at concrete inputs: three custom
lines with `step = 2` give 2 notes; a title plus two verses in Automatic mode
with `step = 1` give 2 notes. -/
theorem C3_note_counts_witness :
    add_notes_count [strToLine "a", strToLine "b", strToLine "c"] 1 2 .CUSTOM (strToLine "*")
        = some 2
      ∧ add_notes_count [strToLine "T", strToLine "x y", strToLine "z w"] 1 1 .AUTOMATIC
          (strToLine " ") = some 2 := by
  constructor
  · exact (C3_note_counts [strToLine "a", strToLine "b", strToLine "c"] 2 (by decide)
      (strToLine "*")).1
  · exact ((C3_note_counts [strToLine "T", strToLine "x y", strToLine "z w"] 1 (by decide)
      (strToLine " ")).2.2
      (ParsedText.mk (strToLine "T") [strToLine "x y", strToLine "z w"] [[], []])
      (by decide)).1

/-! ### Claim C4: by-section mode -/

/-- The merge step relating the source's accumulator scan to the
specification-level run grouping. -/
def run_merge (cur : Line) (acc : List Line) : List (Line × List Line) → List (Line × List Line)
  | [] => [(cur, acc)]
  | (s2, vs) :: more => if s2 = cur then (cur, acc ++ vs) :: more else (cur, acc) :: (s2, vs) :: more

theorem subtitle_runs_cons_eq (v s : Line) (rest : List (Line × Line)) :
    subtitle_runs ((v, s) :: rest)
      = match subtitle_runs rest with
        | [] => [(s, [v])]
        | (s2, vs) :: more =>
          if s = s2 then (s, v :: vs) :: more else (s, [v]) :: (s2, vs) :: more := rfl

theorem subtitle_runs_cons_nil {v s : Line} {rest : List (Line × Line)}
    (hr : subtitle_runs rest = []) :
    subtitle_runs ((v, s) :: rest) = [(s, [v])] := by
  rw [subtitle_runs_cons_eq, hr]

theorem subtitle_runs_cons_cons {v s s2 : Line} {vs : List Line}
    {rest : List (Line × Line)} {more : List (Line × List Line)}
    (hr : subtitle_runs rest = (s2, vs) :: more) :
    subtitle_runs ((v, s) :: rest)
      = if s = s2 then (s, v :: vs) :: more else (s, [v]) :: (s2, vs) :: more := by
  rw [subtitle_runs_cons_eq, hr]

theorem run_merge_nil (cur : Line) (acc : List Line) : run_merge cur acc [] = [(cur, acc)] := rfl

theorem run_merge_cons (cur : Line) (acc : List Line) (s2 : Line) (vs : List Line)
    (more : List (Line × List Line)) :
    run_merge cur acc ((s2, vs) :: more)
      = if s2 = cur then (cur, acc ++ vs) :: more else (cur, acc) :: (s2, vs) :: more := rfl

theorem section_runs_aux_eq :
    ∀ (ps : List (Line × Line)) (cur : Line) (acc : List Line),
      section_runs_aux cur acc ps = run_merge cur acc (subtitle_runs ps) := by
  intro ps
  induction ps with
  | nil => intro cur acc; rfl
  | cons q rest ih =>
    intro cur acc
    obtain ⟨v, s⟩ := q
    rw [section_runs_aux]
    simp only [ih]
    cases hr : subtitle_runs rest with
    | nil =>
      rw [run_merge_nil, run_merge_nil, subtitle_runs_cons_nil hr, run_merge_cons]
    | cons q2 more =>
      obtain ⟨s2, vs⟩ := q2
      rw [run_merge_cons, run_merge_cons, subtitle_runs_cons_cons hr]
      by_cases hss : s = s2
      · subst hss
        simp only [eq_self_iff_true, if_true]
        rw [run_merge_cons]
        by_cases hsc : s = cur
        · rw [if_pos hsc, if_pos hsc, if_pos hsc, List.append_assoc]
          rfl
        · rw [if_neg hsc, if_neg hsc]
          rfl
      · rw [if_neg hss, run_merge_cons]
        by_cases hsc : s = cur
        · rw [if_pos hsc, if_neg (fun hc : s2 = cur => hss (hsc.trans hc.symm)), if_pos hsc]
        · rw [if_neg hsc, if_neg (fun hc : s2 = s => hss hc.symm), if_neg hsc]

theorem subtitle_runs_cons (v s : Line) (rest : List (Line × Line)) :
    ∃ vs more, subtitle_runs ((v, s) :: rest) = (s, vs) :: more ∧ vs ≠ [] := by
  cases hr : subtitle_runs rest with
  | nil => exact ⟨[v], [], subtitle_runs_cons_nil hr, by simp⟩
  | cons q2 more =>
    obtain ⟨s2, vs⟩ := q2
    by_cases hss : s = s2
    · exact ⟨v :: vs, more, by rw [subtitle_runs_cons_cons hr, if_pos hss], by simp⟩
    · exact ⟨[v], (s2, vs) :: more, by rw [subtitle_runs_cons_cons hr, if_neg hss], by simp⟩

theorem subtitle_runs_length (ps : List (Line × Line)) :
    (subtitle_runs ps).length = count_runs (ps.map Prod.snd) := by
  induction ps with
  | nil => rfl
  | cons q rest ih =>
    obtain ⟨v, s⟩ := q
    cases rest with
    | nil => rfl
    | cons q2 rest2 =>
      obtain ⟨v2, s2⟩ := q2
      obtain ⟨vs, more, hr, _⟩ := subtitle_runs_cons v2 s2 rest2
      rw [subtitle_runs_cons_cons hr]
      rw [hr] at ih
      have hc : count_runs (((v, s) :: (v2, s2) :: rest2).map Prod.snd)
          = (if s = s2 then 0 else 1) + count_runs (((v2, s2) :: rest2).map Prod.snd) := rfl
      rw [hc, ← ih]
      by_cases hss : s = s2
      · rw [if_pos hss, if_pos hss]
        simp
      · rw [if_neg hss, if_neg hss]
        simp [Nat.add_comm]

theorem subtitle_runs_nil_iff (ps : List (Line × Line)) :
    subtitle_runs ps = [] ↔ ps = [] := by
  constructor
  · intro h
    cases ps with
    | nil => rfl
    | cons q rest =>
      obtain ⟨v, s⟩ := q
      obtain ⟨vs, more, hr, _⟩ := subtitle_runs_cons v s rest
      rw [hr] at h
      exact absurd h (by simp)
  · intro h; subst h; rfl

theorem subtitle_runs_flatten (ps : List (Line × Line)) :
    ((subtitle_runs ps).map Prod.snd).flatten = ps.map Prod.fst := by
  induction ps with
  | nil => rfl
  | cons q rest ih =>
    obtain ⟨v, s⟩ := q
    cases hr : subtitle_runs rest with
    | nil =>
      have : rest = [] := (subtitle_runs_nil_iff rest).mp hr
      subst this
      rfl
    | cons q2 more =>
      obtain ⟨s2, vs⟩ := q2
      rw [subtitle_runs_cons_cons hr]
      rw [hr] at ih
      by_cases hss : s = s2
      · rw [if_pos hss]
        simp only [List.map_cons, List.flatten_cons] at ih ⊢
        rw [← ih]
        simp
      · rw [if_neg hss]
        simp only [List.map_cons, List.flatten_cons] at ih ⊢
        rw [← ih]
        simp

theorem subtitle_runs_nonempty (ps : List (Line × Line)) :
    ∀ pr ∈ subtitle_runs ps, pr.2 ≠ [] := by
  induction ps with
  | nil => intro pr hpr; simp [subtitle_runs] at hpr
  | cons q rest ih =>
    obtain ⟨v, s⟩ := q
    intro pr hpr
    cases hr : subtitle_runs rest with
    | nil =>
      rw [subtitle_runs_cons_nil hr] at hpr
      simp at hpr
      subst hpr
      simp
    | cons q2 more =>
      obtain ⟨s2, vs⟩ := q2
      rw [subtitle_runs_cons_cons hr] at hpr
      rw [hr] at ih
      by_cases hss : s = s2
      · rw [if_pos hss] at hpr
        rcases List.mem_cons.mp hpr with rfl | hm
        · simp
        · exact ih pr (List.mem_cons_of_mem _ hm)
      · rw [if_neg hss] at hpr
        rcases List.mem_cons.mp hpr with rfl | hm
        · simp
        · exact ih pr hm

theorem section_chain_length (secs : List (Line × List Line)) :
    ∀ pred, (section_chain pred secs).length = secs.length := by
  induction secs with
  | nil => intro pred; rfl
  | cons q rest ih =>
    intro pred
    obtain ⟨sub, ls⟩ := q
    rw [section_chain]
    simp only [List.length_cons]
    rw [ih]

theorem section_chain_data (secs : List (Line × List Line)) :
    ∀ pred, (section_chain pred secs).map (fun q => (q.2.subtitle, q.2.text_lines)) = secs := by
  induction secs with
  | nil => intro pred; rfl
  | cons q rest ih =>
    intro pred
    obtain ⟨sub, ls⟩ := q
    rw [section_chain]
    simp only [List.map_cons]
    rw [ih]

theorem parse_lengths {text : List Line} {caesura : Line} {P : ParsedText}
    (hP : automatic_parse_text text caesura = some P) :
    P.verses.length = P.subtitles.length := by
  cases text with
  | nil => simp [automatic_parse_text] at hP
  | cons t rest =>
    rw [automatic_parse_text] at hP
    simp only [Option.some_inj] at hP
    rw [← hP]
    simp

theorem zip_map_snd : ∀ (l1 l2 : List Line), l1.length = l2.length →
    (l1.zip l2).map Prod.snd = l2 := by
  intro l1
  induction l1 with
  | nil =>
    intro l2 h
    have : l2 = [] := List.eq_nil_of_length_eq_zero (by simp at h; omega)
    subst this
    rfl
  | cons a l1t ih =>
    intro l2 h
    cases l2 with
    | nil => simp at h
    | cons b l2t =>
      rw [List.zip_cons_cons, List.map_cons, ih l2t (by simp at h; omega)]

theorem zip_map_fst : ∀ (l1 l2 : List Line), l1.length = l2.length →
    (l1.zip l2).map Prod.fst = l1 := by
  intro l1
  induction l1 with
  | nil => intro l2 h; rfl
  | cons a l1t ih =>
    intro l2 h
    cases l2 with
    | nil => simp at h
    | cons b l2t =>
      rw [List.zip_cons_cons, List.map_cons, ih l2t (by simp at h; omega)]

theorem get_section_lines_eq (v s : Line) (vs ss : List Line) :
    get_section_lines (v :: vs) (s :: ss)
      = some (subtitle_runs ((v :: vs).zip (s :: ss))) := by
  show some (section_runs_aux s [] ((v :: vs).zip (s :: ss))) = _
  rw [section_runs_aux_eq]
  congr 1
  rw [List.zip_cons_cons]
  obtain ⟨vs0, more, hr, _⟩ := subtitle_runs_cons v s (vs.zip ss)
  rw [hr, run_merge_cons, if_pos rfl]
  simp

/-- C4: in By-section mode, for every parsed input with at least one verse
and *every* step value, the number of notes added equals the number of
maximal runs of consecutive equal subtitle values; the produced sections are
exactly the run decomposition of the verse/subtitle pairs (each run carries
its subtitle and its full, nonempty run of verse lines, and the runs
concatenate back to the verse list). -/
theorem C4_by_section (text : List Line) (caesura : Line) (group step : Nat) (P : ParsedText)
    (hP : automatic_parse_text text caesura = some P) (hv : P.verses ≠ []) :
    add_notes_count text group step .BY_SECTION caesura = some (count_runs P.subtitles)
      ∧ get_section_lines P.verses P.subtitles
          = some (subtitle_runs (P.verses.zip P.subtitles))
      ∧ ((subtitle_runs (P.verses.zip P.subtitles)).map Prod.snd).flatten = P.verses
      ∧ ∀ pr ∈ subtitle_runs (P.verses.zip P.subtitles), pr.2 ≠ [] := by
  have hlen : P.verses.length = P.subtitles.length := parse_lengths hP
  obtain ⟨v, vs, hvv⟩ : ∃ v vs, P.verses = v :: vs := by
    cases hc : P.verses with
    | nil => exact absurd hc hv
    | cons a b => exact ⟨a, b, rfl⟩
  obtain ⟨s, ss, hss⟩ : ∃ s ss, P.subtitles = s :: ss := by
    cases hc : P.subtitles with
    | nil => rw [hvv, hc] at hlen; simp at hlen
    | cons a b => exact ⟨a, b, rfl⟩
  have hsec : get_section_lines P.verses P.subtitles
      = some (subtitle_runs (P.verses.zip P.subtitles)) := by
    rw [hvv, hss]
    exact get_section_lines_eq v s vs ss
  refine ⟨?_, hsec, ?_, subtitle_runs_nonempty _⟩
  · show (match automatic_parse_text text caesura with
      | none => none
      | some p => (poemlines_from_textlines_by_section p).map List.length) = _
    rw [hP]
    show (poemlines_from_textlines_by_section P).map List.length = _
    unfold poemlines_from_textlines_by_section
    rw [hsec]
    show some (section_chain beginningNode (subtitle_runs (P.verses.zip P.subtitles))).length = _
    rw [section_chain_length, subtitle_runs_length, zip_map_snd P.verses P.subtitles hlen]
  · rw [subtitle_runs_flatten, zip_map_fst P.verses P.subtitles hlen]

/-- C4 (witness): a title, two verses and one subtitle header give two
subtitle runs, hence two notes, with `step = 5` ignored. -/
theorem C4_by_section_witness :
    add_notes_count [strToLine "T", strToLine "x y", strToLine "S", strToLine "z w"] 1 5
      .BY_SECTION (strToLine " ") = some 2 := by
  have h := C4_by_section [strToLine "T", strToLine "x y", strToLine "S", strToLine "z w"]
    (strToLine " ") 1 5
    (ParsedText.mk (strToLine "T") [strToLine "x y", strToLine "z w"] [[], strToLine "S"])
    (by decide) (by decide)
  exact h.1

/-! ### Claim C8: chain invariants of the three graph builders -/

/-- How `SingleLine.__init__` derives a node's counters from its
predecessor's. -/
def derivedSingle (x y : PoemNode) : Prop :=
  y.seq = x.seq + 1 ∧ y.start_index = x.start_index + 1

/-- How `GroupedLine.__init__` (and `PoemSection`) derives a node's counters
from its predecessor's. -/
def derivedGrouped (x y : PoemNode) : Prop :=
  y.seq = x.seq + 1 ∧ y.start_index = x.start_index + x.text_lines.length

/-- Strict increase of both counters. -/
def strictNode (x y : PoemNode) : Prop :=
  x.seq < y.seq ∧ x.start_index < y.start_index

theorem single_chain_chain (ps : List (Line × Line)) :
    ∀ pred, List.Chain' derivedSingle (pred :: single_chain pred ps) := by
  induction ps with
  | nil => intro pred; exact List.chain'_singleton _
  | cons q rest ih =>
    intro pred
    obtain ⟨t, s⟩ := q
    simp only [single_chain]
    rw [List.chain'_cons]
    exact ⟨⟨rfl, rfl⟩, ih _⟩

theorem single_chain_strict (ps : List (Line × Line)) :
    ∀ pred, List.Chain' strictNode (pred :: single_chain pred ps) := by
  induction ps with
  | nil => intro pred; exact List.chain'_singleton _
  | cons q rest ih =>
    intro pred
    obtain ⟨t, s⟩ := q
    simp only [single_chain]
    rw [List.chain'_cons]
    exact ⟨⟨Nat.lt_succ_self _, Nat.lt_succ_self _⟩, ih _⟩

theorem grouped_chain_chain (gs : List (List (Option Line))) :
    ∀ pred, List.Chain' derivedGrouped (pred :: grouped_chain pred gs) := by
  induction gs with
  | nil => intro pred; exact List.chain'_singleton _
  | cons g rest ih =>
    intro pred
    simp only [grouped_chain]
    rw [List.chain'_cons]
    exact ⟨⟨rfl, rfl⟩, ih _⟩

theorem grouped_chain_strict (gs : List (List (Option Line))) :
    ∀ pred, pred.text_lines ≠ [] → (∀ g ∈ gs, g.filterMap id ≠ []) →
      List.Chain' strictNode (pred :: grouped_chain pred gs) := by
  induction gs with
  | nil => intro pred _ _; exact List.chain'_singleton _
  | cons g rest ih =>
    intro pred hpred hgs
    simp only [grouped_chain]
    rw [List.chain'_cons]
    constructor
    · exact ⟨Nat.lt_succ_self _, by
        show pred.start_index < pred.start_index + pred.text_lines.length
        have : 0 < pred.text_lines.length := List.length_pos.mpr hpred
        omega⟩
    · exact ih _ (hgs g (by simp)) (fun g2 hg2 => hgs g2 (List.mem_cons_of_mem _ hg2))

theorem section_chain_chain (secs : List (Line × List Line)) :
    ∀ pred, List.Chain' derivedGrouped (pred :: (section_chain pred secs).map Prod.snd) := by
  induction secs with
  | nil => intro pred; exact List.chain'_singleton _
  | cons q rest ih =>
    intro pred
    obtain ⟨sub, ls⟩ := q
    simp only [section_chain, List.map_cons]
    rw [List.chain'_cons]
    exact ⟨⟨rfl, rfl⟩, ih _⟩

theorem section_chain_strict (secs : List (Line × List Line)) :
    ∀ pred, pred.text_lines ≠ [] → (∀ pr ∈ secs, pr.2 ≠ []) →
      List.Chain' strictNode (pred :: (section_chain pred secs).map Prod.snd) := by
  induction secs with
  | nil => intro pred _ _; exact List.chain'_singleton _
  | cons q rest ih =>
    intro pred hpred hsecs
    obtain ⟨sub, ls⟩ := q
    simp only [section_chain, List.map_cons]
    rw [List.chain'_cons]
    constructor
    · exact ⟨Nat.lt_succ_self _, by
        show pred.start_index < pred.start_index + pred.text_lines.length
        have : 0 < pred.text_lines.length := List.length_pos.mpr hpred
        omega⟩
    · exact ih _ (hsecs (sub, ls) (by simp)) (fun q2 hq2 => hsecs q2 (List.mem_cons_of_mem _ hq2))

theorem filterMap_id_map_some {α : Type} (x : List α) : ((x.map some).filterMap id) = x := by
  induction x with
  | nil => rfl
  | cons a rest ih => simp [List.filterMap_cons, ih]

theorem filterMap_id_replicate_none {α : Type} (m : Nat) :
    ((List.replicate m (none : Option α)).filterMap id) = [] := by
  induction m with
  | zero => rfl
  | succ k ih => simp [List.replicate_succ, List.filterMap_cons, ih]

theorem groups_of_n_go_nonempty {α : Type} (n : Nat) :
    ∀ (b : Nat) (l : List α) (g : List (Option α)), g ∈ groups_of_n_go n b l →
      g.filterMap id ≠ [] := by
  intro b
  induction b with
  | zero =>
    intro l g hg
    cases l with
    | nil => simp [groups_of_n_go] at hg
    | cons a l2 => simp [groups_of_n_go] at hg
  | succ m ih =>
    intro l g hg
    cases l with
    | nil => simp [groups_of_n_go] at hg
    | cons a l2 =>
      rw [groups_of_n_go] at hg
      rcases List.mem_cons.mp hg with rfl | hm
      · rw [List.filterMap_append, filterMap_id_replicate_none]
        rw [show ((a :: l2.take (n - 1)).map some).filterMap id = a :: l2.take (n - 1) from
          filterMap_id_map_some _]
        simp
      · exact ih (l2.drop (n - 1)) g hm

theorem groups_of_n_nonempty {α : Type} (l : List α) (n : Nat) :
    ∀ g ∈ groups_of_n l n, g.filterMap id ≠ [] := by
  intro g hg
  unfold groups_of_n at hg
  by_cases hn : n = 0
  · rw [if_pos hn] at hg
    simp at hg
  · rw [if_neg hn] at hg
    exact groups_of_n_go_nonempty n l.length l g hg

theorem chain'_strict_pairwise {l : List PoemNode} (h : List.Chain' strictNode l) :
    List.Pairwise strictNode l := by
  haveI : IsTrans PoemNode strictNode :=
    ⟨fun a b c hab hbc => ⟨Nat.lt_trans hab.1 hbc.1, Nat.lt_trans hab.2 hbc.2⟩⟩
  exact List.chain'_iff_pairwise.mp h

theorem get_section_lines_runs {verses subtitles : List Line}
    {runs : List (Line × List Line)}
    (h : get_section_lines verses subtitles = some runs) : ∀ pr ∈ runs, pr.2 ≠ [] := by
  cases verses with
  | nil => exact absurd h (by rw [show get_section_lines [] subtitles = none from rfl]; simp)
  | cons v vs =>
    cases subtitles with
    | nil => exact absurd h (by rw [show get_section_lines (v :: vs) [] = none from rfl]; simp)
    | cons s ss =>
      rw [get_section_lines_eq] at h
      have : subtitle_runs ((v :: vs).zip (s :: ss)) = runs := by
        injection h
      rw [← this]
      exact subtitle_runs_nonempty _

/-- C8: in every chain produced by the three graph builders, the sentinel has
`seq = 0` and `start_index = 0`; every node's `seq` and `start_index` are
derived from its predecessor's (`+1`, or `+ predecessor's line count` for
grouped/section chains); both counters are strictly increasing along the
chain, and the chain is a finite list in which the counters are pairwise
strictly increasing — so following successor links can never revisit a node
(acyclicity), and each node has exactly the one predecessor and at most the
one successor given by its position. -/
theorem C8_chain_invariants (texts : List Line) (group : Nat) (P : ParsedText)
    (secs : List (Nat × PoemNode))
    (hsec : poemlines_from_textlines_by_section P = some secs) :
    beginningNode.seq = 0 ∧ beginningNode.start_index = 0
      ∧ (group = 1 →
          List.Chain' derivedSingle (beginningNode :: poemlines_from_textlines texts group)
            ∧ List.Chain' derivedSingle
                (beginningNode :: poemlines_from_textlines_automatic P group))
      ∧ (group ≠ 1 →
          List.Chain' derivedGrouped (beginningNode :: poemlines_from_textlines texts group)
            ∧ List.Chain' derivedGrouped
                (beginningNode :: poemlines_from_textlines_automatic P group))
      ∧ List.Chain' derivedGrouped (beginningNode :: secs.map Prod.snd)
      ∧ List.Pairwise strictNode (beginningNode :: poemlines_from_textlines texts group)
      ∧ List.Pairwise strictNode (beginningNode :: poemlines_from_textlines_automatic P group)
      ∧ List.Pairwise strictNode (beginningNode :: secs.map Prod.snd) := by
  obtain ⟨runs, hruns, rfl⟩ : ∃ runs, get_section_lines P.verses P.subtitles = some runs
      ∧ section_chain beginningNode runs = secs := by
    unfold poemlines_from_textlines_by_section at hsec
    obtain ⟨runs, h1, h2⟩ := Option.map_eq_some'.mp hsec
    exact ⟨runs, h1, h2⟩
  have hrn : ∀ pr ∈ runs, pr.2 ≠ [] := get_section_lines_runs hruns
  have hbeg : beginningNode.text_lines ≠ [] := by simp [beginningNode]
  refine ⟨rfl, rfl, ?_, ?_, ?_, ?_, ?_, ?_⟩
  · intro hg
    unfold poemlines_from_textlines poemlines_from_textlines_automatic
    rw [if_pos hg, if_pos hg]
    exact ⟨single_chain_chain _ _, single_chain_chain _ _⟩
  · intro hg
    unfold poemlines_from_textlines poemlines_from_textlines_automatic
    rw [if_neg hg, if_neg hg]
    exact ⟨grouped_chain_chain _ _, grouped_chain_chain _ _⟩
  · exact section_chain_chain runs beginningNode
  · apply chain'_strict_pairwise
    unfold poemlines_from_textlines
    by_cases hg : group = 1
    · rw [if_pos hg]
      exact single_chain_strict _ _
    · rw [if_neg hg]
      exact grouped_chain_strict _ _ hbeg (groups_of_n_nonempty texts group)
  · apply chain'_strict_pairwise
    unfold poemlines_from_textlines_automatic
    by_cases hg : group = 1
    · rw [if_pos hg]
      exact single_chain_strict _ _
    · rw [if_neg hg]
      exact grouped_chain_strict _ _ hbeg (groups_of_n_nonempty P.verses group)
  · apply chain'_strict_pairwise
    exact section_chain_strict runs beginningNode hbeg hrn

/-- C8 (witness): the invariants instantiated on a concrete two-line poem
with `group_lines = 1` and a concrete two-section parsed text. -/
theorem C8_chain_invariants_witness :
    beginningNode.seq = 0 ∧ beginningNode.start_index = 0
      ∧ ((1 : Nat) = 1 →
          List.Chain' derivedSingle (beginningNode
              :: poemlines_from_textlines [strToLine "a", strToLine "b"] 1)
            ∧ List.Chain' derivedSingle (beginningNode
              :: poemlines_from_textlines_automatic
                  (ParsedText.mk (strToLine "T") [strToLine "x y", strToLine "z w"]
                    [[], strToLine "S"]) 1))
      ∧ ((1 : Nat) ≠ 1 →
          List.Chain' derivedGrouped (beginningNode
              :: poemlines_from_textlines [strToLine "a", strToLine "b"] 1)
            ∧ List.Chain' derivedGrouped (beginningNode
              :: poemlines_from_textlines_automatic
                  (ParsedText.mk (strToLine "T") [strToLine "x y", strToLine "z w"]
                    [[], strToLine "S"]) 1))
      ∧ List.Chain' derivedGrouped (beginningNode
          :: (section_chain beginningNode
              [([], [strToLine "x y"]), (strToLine "S", [strToLine "z w"])]).map Prod.snd)
      ∧ List.Pairwise strictNode (beginningNode
          :: poemlines_from_textlines [strToLine "a", strToLine "b"] 1)
      ∧ List.Pairwise strictNode (beginningNode
          :: poemlines_from_textlines_automatic
              (ParsedText.mk (strToLine "T") [strToLine "x y", strToLine "z w"]
                [[], strToLine "S"]) 1)
      ∧ List.Pairwise strictNode (beginningNode
          :: (section_chain beginningNode
              [([], [strToLine "x y"]), (strToLine "S", [strToLine "z w"])]).map Prod.snd) :=
  C8_chain_invariants [strToLine "a", strToLine "b"] 1
    (ParsedText.mk (strToLine "T") [strToLine "x y", strToLine "z w"] [[], strToLine "S"])
    (section_chain beginningNode
      [([], [strToLine "x y"]), (strToLine "S", [strToLine "z w"])])
    (by decide)

/-! ### Claim C7: idempotence of re-cleansing -/

theorem spanStart_eq : spanStart
    = ['<', 's', 'p', 'a', 'n', ' ', 'c', 'l', 'a', 's', 's', '=', '"',
       'i', 'n', 'd', 'e', 'n', 't', '"', '>'] := rfl

theorem isIndentChar_eq_false {c : Char} (h : isWS c = false) : isIndentChar c = false := by
  cases hic : isIndentChar c
  · rfl
  · rw [isWS_of_isIndentChar hic] at h
    exact absurd h (by simp)

theorem dropWhile_head_not {p : Char → Bool} :
    ∀ {l : Line} {c : Char}, (l.dropWhile p).head? = some c → p c = false := by
  intro l
  induction l with
  | nil => intro c h; simp at h
  | cons a t ih =>
    intro c h
    rw [List.dropWhile_cons] at h
    by_cases hp : p a = true
    · rw [if_pos hp] at h
      exact ih h
    · rw [if_neg hp] at h
      simp at h
      rw [← h]
      cases hq : p a
      · rfl
      · exact absurd hq hp

theorem isPrefix_head {l1 l2 : Line} {c : Char} (h : l1 <+: l2) (hc : l1.head? = some c) :
    l2.head? = some c := by
  obtain ⟨t, rfl⟩ := h
  cases l1 with
  | nil => simp at hc
  | cons a r => simpa using hc

theorem stripLine_head {l : Line} {c : Char} (h : (stripLine l).head? = some c) :
    isWS c = false := by
  unfold stripLine at h
  have h2 : (l.dropWhile isWS).head? = some c :=
    isPrefix_head (dropTrailingWS_isPrefix _) h
  exact dropWhile_head_not h2

theorem dropTrailingWS_getLast {l : Line} {c : Char}
    (h : (dropTrailingWS l).getLast? = some c) : isWS c = false := by
  unfold dropTrailingWS at h
  rw [← List.head?_reverse, List.reverse_reverse] at h
  exact dropWhile_head_not h

theorem stripLine_getLast {l : Line} {c : Char} (h : (stripLine l).getLast? = some c) :
    isWS c = false :=
  dropTrailingWS_getLast h

theorem stripComment_isPrefix (l : Line) : stripComment l <+: l := by
  unfold stripComment
  by_cases h : hasHash l = true
  · rw [if_pos h]
    exact (dropTrailingWS_isPrefix _).trans (List.takeWhile_prefix _)
  · rw [if_neg h]

theorem hasHash_stripComment (l : Line) : hasHash (stripComment l) = false := by
  by_cases h : hasHash l = true
  · unfold stripComment
    rw [if_pos h]
    simp only [hasHash, List.any_eq_false, beq_iff_eq]
    intro c hc hceq
    subst hceq
    have h1 : '#' ∈ l.takeWhile (fun c => !(c == '#')) := mem_dropTrailingWS hc
    have h2 := List.mem_takeWhile_imp h1
    simp at h2
  · unfold stripComment
    rw [if_neg h]
    simpa using h

theorem dropTrailingWS_eq_self {l : Line} (h : ∀ c, l.getLast? = some c → isWS c = false) :
    dropTrailingWS l = l := by
  unfold dropTrailingWS
  rw [dropWhileWS_eq_self (fun c hc => h c (by rwa [List.head?_reverse] at hc)),
    List.reverse_reverse]

theorem stripLine_eq_self {l : Line} (hh : ∀ c, l.head? = some c → isWS c = false)
    (ht : ∀ c, l.getLast? = some c → isWS c = false) : stripLine l = l := by
  unfold stripLine
  rw [dropWhileWS_eq_self hh, dropTrailingWS_eq_self ht]

theorem head_append_left {l1 l2 : Line} {c : Char} (h : (l1 ++ l2).head? = some c)
    (hne : l1 ≠ []) : l1.head? = some c := by
  cases l1 with
  | nil => exact absurd rfl hne
  | cons a t => simpa using h

theorem midline_of (x : Line) :
    hasHash (stripComment (stripLine x)) = false
      ∧ (∀ c, (stripComment (stripLine x)).head? = some c → isWS c = false)
      ∧ (∀ c, (stripComment (stripLine x)).getLast? = some c → isWS c = false) := by
  refine ⟨hasHash_stripComment _, ?_, ?_⟩
  · intro c hc
    exact stripLine_head (isPrefix_head (stripComment_isPrefix _) hc)
  · intro c hc
    unfold stripComment at hc
    by_cases h : hasHash (stripLine x) = true
    · rw [if_pos h] at hc
      exact dropTrailingWS_getLast hc
    · rw [if_neg h] at hc
      exact stripLine_getLast hc

theorem hasHash_append (a b : Line) : hasHash (a ++ b) = (hasHash a || hasHash b) := by
  unfold hasHash
  exact List.any_append

theorem isBlank_append (a b : Line) : isBlank (a ++ b) = (isBlank a && isBlank b) := by
  unfold isBlank
  exact List.all_append

theorem remove_consecutive_blanks_mem {xs : List Line} :
    ∀ last m, m ∈ remove_consecutive_blanks xs last → m ∈ xs := by
  induction xs with
  | nil => intro last m hm; simp [remove_consecutive_blanks] at hm
  | cons i rest ih =>
    intro last m hm
    rw [remove_consecutive_blanks] at hm
    by_cases hb : (isBlank last && isBlank i) = true
    · rw [if_pos hb] at hm
      exact List.mem_cons_of_mem _ (ih i m hm)
    · rw [if_neg hb] at hm
      rcases List.mem_cons.mp hm with rfl | hm2
      · simp
      · exact List.mem_cons_of_mem _ (ih i m hm2)

theorem del_blank_ends_mem {xs t4 : List Line} (h : del_blank_ends xs = some t4) :
    ∀ m ∈ t4, m ∈ xs := by
  cases xs with
  | nil => simp [del_blank_ends] at h
  | cons x rest =>
    have hmem : ∀ m ∈ (if isBlank x then rest else x :: rest), m ∈ x :: rest := by
      intro m hm
      by_cases hb : isBlank x = true
      · rw [if_pos hb] at hm
        exact List.mem_cons_of_mem _ hm
      · rw [if_neg hb] at hm
        exact hm
    simp only [del_blank_ends] at h
    cases hg : (if isBlank x then rest else x :: rest).getLast? with
    | none => rw [hg] at h; simp at h
    | some y =>
      rw [hg] at h
      simp only [Option.some_inj] at h
      intro m hm
      rw [← h] at hm
      by_cases hy : isBlank y = true
      · rw [if_pos hy] at hm
        exact hmem m (List.mem_of_mem_dropLast hm)
      · rw [if_neg hy] at hm
        exact hmem m hm

theorem normalize_mem {l t4 : List Line} (h : normalize_blank_lines l = some t4) :
    ∀ m ∈ t4, m ∈ l := by
  unfold normalize_blank_lines at h
  intro m hm
  exact remove_consecutive_blanks_mem [] m (del_blank_ends_mem h m hm)

theorem add_markers_mem {t4 : List Line} (eos eot : Line) :
    ∀ m ∈ add_markers t4 eos eot, ∃ x ∈ t4, m = x ∨ m = x ++ eos ∨ m = x ++ eot := by
  induction t4 with
  | nil => intro m hm; simp [add_markers] at hm
  | cons x rest ih =>
    intro m hm
    cases rest with
    | nil =>
      rw [add_markers] at hm
      simp only [List.mem_singleton] at hm
      exact ⟨x, by simp, Or.inr (Or.inr hm)⟩
    | cons y rest2 =>
      rw [add_markers] at hm
      rcases List.mem_cons.mp hm with rfl | hm2
      · refine ⟨x, by simp, ?_⟩
        by_cases hb : isBlank y = true
        · rw [if_pos hb]
          exact Or.inr (Or.inl rfl)
        · rw [if_neg hb]
          exact Or.inl rfl
      · obtain ⟨x2, hx2, hcase⟩ := ih m hm2
        exact ⟨x2, List.mem_cons_of_mem _ hx2, hcase⟩

theorem remove_consecutive_blanks_head {xs : List Line} :
    ∀ last m, isBlank last = true → (remove_consecutive_blanks xs last).head? = some m →
      isBlank m = false := by
  induction xs with
  | nil => intro last m _ h; simp [remove_consecutive_blanks] at h
  | cons i rest ih =>
    intro last m hlast h
    rw [remove_consecutive_blanks] at h
    by_cases hb : (isBlank last && isBlank i) = true
    · rw [if_pos hb] at h
      exact ih i m (by simp at hb; exact hb.2) h
    · rw [if_neg hb] at h
      simp only [List.head?_cons, Option.some_inj] at h
      subst h
      simp only [Bool.and_eq_true] at hb
      push_neg at hb
      cases hmi : isBlank i
      · rfl
      · exact absurd hmi (hb hlast)

theorem normalize_head {l t4 : List Line} (h : normalize_blank_lines l = some t4) :
    ∃ x rest2, t4 = x :: rest2 ∧ isBlank x = false := by
  unfold normalize_blank_lines at h
  cases hc : remove_consecutive_blanks l [] with
  | nil => rw [hc] at h; simp [del_blank_ends] at h
  | cons x rest =>
    have hx : isBlank x = false :=
      remove_consecutive_blanks_head [] x (by decide) (by rw [hc]; rfl)
    rw [hc] at h
    simp only [del_blank_ends] at h
    rw [if_neg (by simp [hx])] at h
    cases hg : (x :: rest).getLast? with
    | none => simp [List.getLast?_eq_none_iff] at hg
    | some y =>
      rw [hg] at h
      simp only [Option.some_inj] at h
      by_cases hy : isBlank y = true
      · rw [if_pos hy] at h
        have hrne : rest ≠ [] := by
          intro hre
          subst hre
          simp only [List.getLast?_singleton, Option.some_inj] at hg
          rw [hg] at hx
          rw [hy] at hx
          exact absurd hx (by simp)
        obtain ⟨r0, rs, rfl⟩ : ∃ r0 rs, rest = r0 :: rs := by
          cases rest with
          | nil => exact absurd rfl hrne
          | cons a b => exact ⟨a, b, rfl⟩
        exact ⟨x, (r0 :: rs).dropLast, by rw [← h]; rfl, hx⟩
      · rw [if_neg hy] at h
        exact ⟨x, rest, h.symm, hx⟩

/-- The invariant satisfied by every line of `cleanse_text`'s output (when
the end-of-stanza marker is `#`-free and has no leading or trailing
whitespace and the end-of-text marker is empty). -/
def goodLine (l : Line) : Prop :=
  isBlank l = false ∧ hasHash l = false
    ∧ (∀ c, l.head? = some c → isWS c = false)
    ∧ (∀ c, l.getLast? = some c → isWS c = false)
    ∧ indentToken.isPrefixOf l = false

theorem token_not_prefix_span (z : Line) :
    indentToken.isPrefixOf (spanStart ++ z) = false := by
  rw [indentToken_eq, spanStart_eq]
  simp [List.isPrefixOf]

theorem cleanse_text_eq_of_normalize (eos eot : Line) {text t4 : List Line}
    (hn : normalize_blank_lines (comment_pass text) = some t4) :
    cleanse_text text eos eot
      = some (((add_markers t4 eos eot).filter (fun l => !(isBlank l))).map indentToSpan) := by
  unfold cleanse_text
  rw [hn]

theorem cleanse_text_none (eos eot : Line) {text : List Line}
    (hn : normalize_blank_lines (comment_pass text) = none) :
    cleanse_text text eos eot = none := by
  unfold cleanse_text
  rw [hn]

theorem cleanse_good {text out : List Line} {eos : Line}
    (he1 : hasHash eos = false)
    (he2 : ∀ c, eos.head? = some c → isWS c = false)
    (he3 : ∀ c, eos.getLast? = some c → isWS c = false)
    (h : cleanse_text text eos [] = some out) :
    out ≠ [] ∧ ∀ l ∈ out, goodLine l := by
  cases hn : normalize_blank_lines (comment_pass text) with
  | none =>
    rw [cleanse_text_none eos [] hn] at h
    exact absurd h (by simp)
  | some t4 =>
    rw [cleanse_text_eq_of_normalize eos [] hn] at h
    have hout : ((add_markers t4 eos []).filter (fun l => !(isBlank l))).map indentToSpan
        = out := by
      injection h
    have ht3 : ∀ m ∈ comment_pass text, hasHash m = false
        ∧ (∀ c, m.head? = some c → isWS c = false)
        ∧ (∀ c, m.getLast? = some c → isWS c = false) := by
      intro m hm
      rw [comment_pass_eq, List.mem_map] at hm
      obtain ⟨x, _, rfl⟩ := hm
      exact midline_of (indentSub x)
    have ht5 : ∀ m ∈ add_markers t4 eos [], hasHash m = false
        ∧ (∀ c, m.head? = some c → isWS c = false)
        ∧ (∀ c, m.getLast? = some c → isWS c = false) := by
      intro m hm
      obtain ⟨x, hx, hcase⟩ := add_markers_mem eos [] m hm
      have hxp := ht3 x (normalize_mem hn x hx)
      rcases hcase with rfl | rfl | rfl
      · exact hxp
      · refine ⟨?_, ?_, ?_⟩
        · rw [hasHash_append, hxp.1, he1]
          rfl
        · intro c hc
          cases hx0 : x with
          | nil =>
            rw [hx0] at hc
            exact he2 c (by simpa using hc)
          | cons a t =>
            rw [hx0] at hc
            exact hxp.2.1 c (by rw [hx0]; exact head_append_left hc (by simp))
        · intro c hc
          by_cases he : eos = []
          · subst he
            rw [List.append_nil] at hc
            exact hxp.2.2 c hc
          · rw [List.getLast?_append_of_ne_nil _ he] at hc
            exact he3 c hc
      · rw [List.append_nil]
        exact hxp
    constructor
    · obtain ⟨x0, rest0, ht40, hx0⟩ := normalize_head hn
      have hz : ∃ z, z ∈ add_markers t4 eos [] ∧ isBlank z = false := by
        rw [ht40]
        cases rest0 with
        | nil =>
          refine ⟨x0 ++ [], by rw [add_markers]; simp, ?_⟩
          rw [List.append_nil]
          exact hx0
        | cons y rest1 =>
          rw [add_markers]
          by_cases hb : isBlank y = true
          · rw [if_pos hb]
            refine ⟨x0 ++ eos, by simp, ?_⟩
            rw [isBlank_append, hx0]
            rfl
          · rw [if_neg hb]
            exact ⟨x0, by simp, hx0⟩
      obtain ⟨z, hz1, hz2⟩ := hz
      have : indentToSpan z ∈ out := by
        rw [← hout]
        exact List.mem_map_of_mem _ (List.mem_filter.mpr ⟨hz1, by simp [hz2]⟩)
      exact List.ne_nil_of_mem this
    · intro l hl
      rw [← hout, List.mem_map] at hl
      obtain ⟨m, hm, rfl⟩ := hl
      rw [List.mem_filter] at hm
      have hmb : isBlank m = false := by
        have := hm.2
        simpa using this
      have hmp := ht5 m hm.1
      unfold indentToSpan
      by_cases hpre : indentToken.isPrefixOf m = true
      · rw [if_pos hpre]
        refine ⟨?_, ?_, ?_, ?_, ?_⟩
        · rw [isBlank_append, isBlank_append, show isBlank spanStart = false from by decide]
          rfl
        · rw [hasHash_append, hasHash_append,
            show hasHash spanStart = false from by decide,
            show hasHash spanEnd = false from by decide]
          have : hasHash (m.drop indentToken.length) = false := by
            simp only [hasHash, List.any_eq_false, beq_iff_eq] at hmp ⊢
            intro c hc hceq
            exact hmp.1 c ((List.drop_sublist _ _).mem hc) hceq
          rw [this]
          rfl
        · intro c hc
          have h1 : (spanStart ++ m.drop indentToken.length).head? = some c :=
            head_append_left hc (by rw [spanStart_eq]; simp)
          have h2 : spanStart.head? = some c :=
            head_append_left h1 (by rw [spanStart_eq]; simp)
          rw [spanStart_eq] at h2
          simp only [List.head?_cons, Option.some_inj] at h2
          rw [← h2]
          rfl
        · intro c hc
          rw [List.getLast?_append_of_ne_nil _ (by rw [show spanEnd
              = ['<', '/', 's', 'p', 'a', 'n', '>'] from rfl]; simp)] at hc
          rw [show spanEnd.getLast? = some '>' from rfl] at hc
          simp only [Option.some_inj] at hc
          rw [← hc]
          rfl
        · exact token_not_prefix_span _
      · rw [if_neg hpre]
        refine ⟨hmb, hmp.1, hmp.2.1, hmp.2.2, ?_⟩
        cases hp : indentToken.isPrefixOf m
        · rfl
        · exact absurd hp hpre

theorem cleanse_fixed {out : List Line} (eos : Line) (hne : out ≠ [])
    (h : ∀ l ∈ out, goodLine l) : cleanse_text out eos [] = some out := by
  have hcp : comment_pass out = out := by
    rw [comment_pass_eq]
    rw [List.filter_eq_self.mpr (fun l hl => by
      simp [startsHash_of_hasHash (h l hl).2.1])]
    have hid : ∀ l ∈ out, stripComment (stripLine (indentSub l)) = id l := by
      intro l hl
      obtain ⟨_, hh, hhd, htl, _⟩ := h l hl
      rw [indentSub_eq_self (fun c hc => isIndentChar_eq_false (hhd c hc))]
      rw [stripLine_eq_self hhd htl, stripComment_of_no_hash hh]
      rfl
    rw [List.map_congr_left hid, List.map_id]
  have hblank : ∀ m ∈ out, isBlank m = false := fun m hm => (h m hm).1
  unfold cleanse_text
  rw [hcp, normalize_of_nonblank hne hblank]
  show some (((add_markers out eos []).filter (fun l => !(isBlank l))).map indentToSpan) = _
  rw [add_markers_of_nonblank eos hblank]
  rw [List.filter_eq_self.mpr (fun m hm => by simp [hblank m hm])]
  have hid2 : ∀ m ∈ out, indentToSpan m = id m := by
    intro m hm
    unfold indentToSpan
    rw [if_neg (by simp [(h m hm).2.2.2.2])]
    rfl
  rw [List.map_congr_left hid2, List.map_id]

/-- C7 (counterexample): with a nonempty end-of-text marker the cleanser is
not idempotent: every run appends the marker to the final line again, so
re-cleansing `["aE"]` (the output for `["a"]` with `endOfTextMarker = "E"`)
yields `["aEE"]`. -/
theorem C7_counterexample :
    cleanse_text [strToLine "a"] [] (strToLine "E") = some [strToLine "aE"]
      ∧ cleanse_text [strToLine "aE"] [] (strToLine "E") ≠ some [strToLine "aE"] := by
  constructor
  · decide
  · decide

/-- C7 (amended): marker placement is idempotent only for configurations
whose end-of-text marker is empty and whose end-of-stanza marker contains no
`#` and neither starts nor ends with whitespace: re-running the cleanser on
the line sequence it produced (which contains no remaining blank runs)
yields the same sequence, with no additional markers appended.  A nonempty
end-of-text marker breaks idempotence, since it is unconditionally appended
to the last line on every run. -/
theorem C7_idempotent (text : List Line) (eos : Line)
    (he1 : hasHash eos = false)
    (he2 : ∀ c, eos.head? = some c → isWS c = false)
    (he3 : ∀ c, eos.getLast? = some c → isWS c = false)
    (out : List Line) (h : cleanse_text text eos [] = some out) :
    cleanse_text out eos [] = some out := by
  obtain ⟨hne, hgood⟩ := cleanse_good he1 he2 he3 h
  exact cleanse_fixed eos hne hgood

/-- C7 (witness): the idempotence theorem applied to a stanza-break input
with marker `Y`: the first run yields `["aY", "b"]` and the second run
returns it unchanged. -/
theorem C7_idempotent_witness :
    cleanse_text [strToLine "aY", strToLine "b"] (strToLine "Y") [] =
      some [strToLine "aY", strToLine "b"] :=
  C7_idempotent [strToLine "a", strToLine "", strToLine "b"] (strToLine "Y")
    (by decide) (by decide) (by decide) [strToLine "aY", strToLine "b"] (by decide)
